import Mathlib

/-!
Verification of the slurmjobs utility module (src/slurmjobs/util.py).

The Python functions are shallowly embedded as executable Lean definitions:
Python values flowing through the naming and expansion code are modelled by
the inductive type PyVal, Python dictionaries by ordered association lists
with insert-or-overwrite assignment, raised exceptions by Except PyErr, and
the (mutating) dict_merge helper by explicit state passing over a heap of
dictionaries.
-/

namespace Slurmjobs

/-- Exceptions that the embedded code can raise. -/
inductive PyErr where
  | typeError
  | valueError
  | keyError
  | indexError
  deriving Repr, DecidableEq

/-- Python values handled by the naming / expansion utilities: integers,
booleans, strings, lists, tuples and string-keyed dictionaries.
Dictionaries are ordered association lists (Python dictionaries preserve
insertion order). -/
inductive PyVal where
  | int : Int → PyVal
  | bool : Bool → PyVal
  | str : String → PyVal
  | list : List PyVal → PyVal
  | tuple : List PyVal → PyVal
  | dict : List (String × PyVal) → PyVal
  deriving Repr

/-- Python dictionary assignment d[k] = v on an ordered association list:
if the key is present its value is overwritten in place, otherwise the pair
is appended at the end (insertion order semantics). -/
def dinsert {α : Type} (k : String) (v : α) : List (String × α) → List (String × α)
  | [] => [(k, v)]
  | (k2, v2) :: rest => if k2 = k then (k, v) :: rest else (k2, v2) :: dinsert k v rest

/-- Python dictionary lookup d[k] on an association list (first match; keys
of a Python dictionary are unique, so this is exact). -/
def alookup {α : Type} (k : String) : List (String × α) → Option α
  | [] => none
  | (k2, v) :: rest => if k2 = k then some v else alookup k rest

/-- Helper for the Python expression (",").join(xs): succeeds only when
every element is a string (otherwise Python raises TypeError). -/
def joinStrs : List PyVal → Option String
  | [] => some ""
  | PyVal.str s :: rest =>
    match rest with
    | [] => some s
    | _ => (joinStrs rest).map (fun r => s ++ "," ++ r)
  | _ => none

/-- Embedding of format_value_for_name (util.py lines 31-37).
The dict branch of the source evaluates sorted(dict.items()), calling the
method items on the builtin type dict itself instead of on the local value
x; at runtime this raises TypeError (descriptor items needs an argument),
so the dict branch is embedded as that error.  The list/tuple branch joins
the elements with a comma, which raises TypeError unless every element is
a string.  Every other value is returned unchanged. -/
def format_value_for_name (x : PyVal) : Except PyErr PyVal :=
  match x with
  | PyVal.dict _ => Except.error PyErr.typeError
  | PyVal.list xs =>
    match joinStrs xs with
    | none => Except.error PyErr.typeError
    | some s => Except.ok (PyVal.str ("(" ++ s ++ ")"))
  | PyVal.tuple xs =>
    match joinStrs xs with
    | none => Except.error PyErr.typeError
    | some s => Except.ok (PyVal.str ("(" ++ s ++ ")"))
  | v => Except.ok v

/-- Model of the Python predicate c.isalnum() for a single character.
Python uses the Unicode character database: beyond ASCII [A-Za-z0-9], any
Unicode letter or numeric character is alphanumeric.  We model the ASCII
range exactly and, of the non-ASCII alphanumerics, the Latin-1 Supplement
and Latin Extended-A/B letters (codepoints 0xC0-0x24F except the two
operators 0xD7 and 0xF7); this is a strict under-approximation of the full
Unicode table, exact on every character appearing in this development. -/
def pyIsAlnum (c : Char) : Bool :=
  c.isAlphanum ||
    (0xC0 ≤ c.toNat && c.toNat ≤ 0x24F && c.toNat ≠ 0xD7 && c.toNat ≠ 0xF7)

/-- Model of the Python membership test c in s for a character and a
string (a one-character needle is in a string iff it occurs in it). -/
def pyCharIn (c : Char) (s : String) : Bool :=
  s.data.contains c

/-- Embedding of make_job_name_tpl (util.py lines 27-29): builds the format
template name1-{name1},name2-{name2},... -/
def make_job_name_tpl (names : List String) : String :=
  String.intercalate "," (names.map (fun n => n ++ "-\x7b" ++ n ++ "\x7d"))

/-- Decimal representation of an integer, as Python str(int). -/
def pyIntStr (n : Int) : String := toString n

mutual

/-- Model of Python repr for the embedded values (used by str on
containers).  Strings are wrapped in single quotes; tuples of length one
get a trailing comma, as in Python. -/
def pyRepr : PyVal → String
  | PyVal.int n => pyIntStr n
  | PyVal.bool b => cond b "True" "False"
  | PyVal.str s => "\x27" ++ s ++ "\x27"
  | PyVal.list xs => "[" ++ String.intercalate ", " (pyReprList xs) ++ "]"
  | PyVal.tuple [x] => "(" ++ pyRepr x ++ ",)"
  | PyVal.tuple xs => "(" ++ String.intercalate ", " (pyReprList xs) ++ ")"
  | PyVal.dict d => "\x7b" ++ String.intercalate ", " (pyReprDict d) ++ "\x7d"

/-- Representation strings of a list of values. -/
def pyReprList : List PyVal → List String
  | [] => []
  | x :: xs => pyRepr x :: pyReprList xs

/-- Representation strings of the entries of a dictionary. -/
def pyReprDict : List (String × PyVal) → List String
  | [] => []
  | (k, v) :: rest => ("\x27" ++ k ++ "\x27: " ++ pyRepr v) :: pyReprDict rest

end

/-- Model of Python str(v): strings are rendered verbatim, other values by
their repr (integers and booleans coincide with repr). -/
def pyStr : PyVal → String
  | PyVal.str s => s
  | v => pyRepr v

/-- Opening brace character. -/
def obrace : Char := Char.ofNat 123

/-- Closing brace character. -/
def cbrace : Char := Char.ofNat 125

/-- Numeric value of a list of decimal digit characters. -/
def digitsToNat (cs : List Char) : Nat :=
  cs.foldl (fun n c => n * 10 + (c.toNat - 48)) 0

/-- Resolution of one replacement field of str.format: an empty field name
takes the next positional argument (auto numbering), an all-digit field
name indexes the positional arguments, any other field name is looked up
among the keyword arguments.  Returns the rendered text and the updated
auto-numbering counter.  Conversion and format-spec suffixes of the field
syntax are not used by this code base and are not modelled. -/
def resolveField (field : List Char) (auto : Nat) (args : List PyVal)
    (kw : List (String × PyVal)) : Except PyErr (String × Nat) :=
  if field.isEmpty then
    match args[auto]? with
    | some v => Except.ok (pyStr v, auto + 1)
    | none => Except.error PyErr.indexError
  else if field.all Char.isDigit then
    match args[digitsToNat field]? with
    | some v => Except.ok (pyStr v, auto)
    | none => Except.error PyErr.indexError
  else
    match alookup (String.mk field) kw with
    | some v => Except.ok (pyStr v, auto)
    | none => Except.error PyErr.keyError

/-- Core of the model of Python str.format, on the explicit character list
of the template.  Doubled braces are literal braces; a single opening brace
starts a replacement field read up to the matching closing brace; a single
closing brace outside a field is an error — as in Python.  The fuel
argument strictly decreases at every step and is unreachable when it
exceeds the template length. -/
def pyFormatCore : Nat → List Char → Nat → List PyVal → List (String × PyVal) →
    Except PyErr (List Char)
  | 0, _, _, _, _ => Except.error PyErr.valueError
  | _ + 1, [], _, _, _ => Except.ok []
  | fuel + 1, c :: rest, auto, args, kw =>
    if c = obrace then
      match rest with
      | [] => Except.error PyErr.valueError
      | c2 :: rest2 =>
        if c2 = obrace then
          match pyFormatCore fuel rest2 auto args kw with
          | Except.error e => Except.error e
          | Except.ok out => Except.ok (obrace :: out)
        else
          let field := rest.takeWhile (fun d => d ≠ cbrace)
          match rest.dropWhile (fun d => d ≠ cbrace) with
          | [] => Except.error PyErr.valueError
          | _ :: rest3 =>
            match resolveField field auto args kw with
            | Except.error e => Except.error e
            | Except.ok (s, auto2) =>
              match pyFormatCore fuel rest3 auto2 args kw with
              | Except.error e => Except.error e
              | Except.ok out => Except.ok (s.data ++ out)
    else if c = cbrace then
      match rest with
      | c2 :: rest2 =>
        if c2 = cbrace then
          match pyFormatCore fuel rest2 auto args kw with
          | Except.error e => Except.error e
          | Except.ok out => Except.ok (cbrace :: out)
        else Except.error PyErr.valueError
      | [] => Except.error PyErr.valueError
    else
      match pyFormatCore fuel rest auto args kw with
      | Except.error e => Except.error e
      | Except.ok out => Except.ok (c :: out)

/-- Model of tpl.format(*args, **kw).  The fuel template-length + 1 always
suffices because every recursive step consumes at least one character of
the remaining template. -/
def pyFormat (tpl : String) (args : List PyVal) (kw : List (String × PyVal)) :
    Except PyErr String :=
  match pyFormatCore (tpl.data.length + 1) tpl.data 0 args kw with
  | Except.error e => Except.error e
  | Except.ok cs => Except.ok (String.mk cs)

/-- Ordering of dictionary entries by key, as used by sorted(params.items())
(keys of a dictionary are unique, so the comparison never reaches the
values and key order alone is exact). -/
def keyLE (p q : String × PyVal) : Prop := p.1 ≤ q.1

instance : DecidableRel keyLE := fun p q => inferInstanceAs (Decidable (p.1 ≤ q.1))

/-- Embedding of sorted(params.items()) for a Python dictionary. -/
def sortParams (l : List (String × PyVal)) : List (String × PyVal) :=
  List.insertionSort keyLE l

/-- Embedding of the dictionary comprehension
\x7bk: format_value_for_name(v) for k, v in params.items()\x7d of
get_job_name: formats every value, propagating the first raised error. -/
def fmtParams : List (String × PyVal) → Except PyErr (List (String × PyVal))
  | [] => Except.ok []
  | (k, v) :: rest =>
    match format_value_for_name v with
    | Except.error e => Except.error e
    | Except.ok v2 =>
      match fmtParams rest with
      | Except.error e => Except.error e
      | Except.ok rest2 => Except.ok ((k, v2) :: rest2)

/-- Embedding of get_job_name (util.py lines 18-25).  Steps: format each
value for the name; unpack zip(*sorted(params.items())) — which raises
ValueError on an empty dictionary; take the given template unless it is
None or empty (Python falsiness), in which case make_job_name_tpl of the
sorted names is used; interpolate with the sorted values positionally and
the formatted dictionary as keywords; prepend the base name and a comma;
finally keep only the characters that are alphanumeric or members of
allowed. -/
def get_job_name (name : String) (params : List (String × PyVal))
    (job_name_tpl : Option String := none) (allowed : String := ",._-") :
    Except PyErr String :=
  match fmtParams params with
  | Except.error e => Except.error e
  | Except.ok fps =>
    if fps.isEmpty then Except.error PyErr.valueError
    else
      let sortedP := sortParams fps
      let param_names := sortedP.map Prod.fst
      let param_vals := sortedP.map Prod.snd
      let tpl :=
        match job_name_tpl with
        | some s => if s = "" then make_job_name_tpl param_names else s
        | none => make_job_name_tpl param_names
      match pyFormat tpl param_vals fps with
      | Except.error e => Except.error e
      | Except.ok body =>
        Except.ok (String.mk
          ((name ++ "," ++ body).data.filter
            (fun c => pyIsAlnum c || pyCharIn c allowed)))

/-- Axis key of a parameter specification: a single name, or a tuple of
names (a paired axis). -/
inductive AxisKey where
  | single : String → AxisKey
  | pair : List String → AxisKey
  deriving Repr, DecidableEq

/-- Elements obtained by iterating a Python value, as zip does: tuples and
lists yield their elements, strings their characters, dictionaries their
keys; other values are not iterable (TypeError). -/
def pyIterElems : PyVal → Option (List PyVal)
  | PyVal.tuple xs => some xs
  | PyVal.list xs => some xs
  | PyVal.str s => some (s.data.map (fun c => PyVal.str (String.mk [c])))
  | PyVal.dict d => some (d.map (fun p => PyVal.str p.1))
  | _ => none

/-- Loop of expand_paired_params (util.py lines 125-133) with the
accumulator dictionary ps explicit: a plain name is assigned directly; for
a tuple of names the value is iterated and zip pairs names with values up
to the shorter of the two lengths (zip truncates; no arity check), raising
TypeError only when the value is not iterable. -/
def epp_loop : List (AxisKey × PyVal) → List (String × PyVal) →
    Except PyErr (List (String × PyVal))
  | [], ps => Except.ok ps
  | (AxisKey.single n, v) :: rest, ps => epp_loop rest (dinsert n v ps)
  | (AxisKey.pair ns, v) :: rest, ps =>
    match pyIterElems v with
    | none => Except.error PyErr.typeError
    | some vs =>
      epp_loop rest ((ns.zip vs).foldl (fun ps2 p => dinsert p.1 p.2 ps2) ps)

/-- Embedding of expand_paired_params (util.py lines 114-134). -/
def expand_paired_params (params : List (AxisKey × PyVal)) :
    Except PyErr (List (String × PyVal)) :=
  epp_loop params []

/-- Embedding of itertools.product over a list of value sequences: the
cartesian product in axis-major order, rightmost axis varying fastest. -/
def itproduct {α : Type} : List (List α) → List (List α)
  | [] => [[]]
  | l :: ls => l.flatMap (fun x => (itproduct ls).map (fun t => x :: t))

/-- Effectful map collecting a list of results, propagating the first
raised error — the behaviour of list() over a generator whose body can
raise. -/
def mapME {α β : Type} (f : α → Except PyErr β) : List α → Except PyErr (List β)
  | [] => Except.ok []
  | a :: as =>
    match f a with
    | Except.error e => Except.error e
    | Except.ok b =>
      match mapME f as with
      | Except.error e => Except.error e
      | Except.ok bs => Except.ok (b :: bs)

/-- Embedding of expand_param_grid (util.py lines 91-112).  The unpacking
zip(*params) raises ValueError on an empty specification; otherwise the
cartesian product of the value sequences is traversed in order and every
product tuple is zipped back with the axis keys and flattened by
expand_paired_params.  A mapping input iterates as its ordered item list,
so the association-list form covers both accepted input shapes.  The lazy
generator of the source is embedded as the eager list of its elements. -/
def expand_param_grid (params : List (AxisKey × List PyVal)) :
    Except PyErr (List (List (String × PyVal))) :=
  if params.isEmpty then Except.error PyErr.valueError
  else
    mapME (fun ps => expand_paired_params ((params.map Prod.fst).zip ps))
      (itproduct (params.map Prod.snd))

/-- Formatter classes of the Argument hierarchy. -/
inductive ArgClass where
  | argumentCls
  | fireArgumentCls
  | sacredArgumentCls
  | jsonArgumentCls
  deriving Repr, DecidableEq

/-- Python class name of each formatter class. -/
def argClassName : ArgClass → String
  | ArgClass.argumentCls => "Argument"
  | ArgClass.fireArgumentCls => "FireArgument"
  | ArgClass.sacredArgumentCls => "SacredArgument"
  | ArgClass.jsonArgumentCls => "JsonArgument"

/-- Subclasses of Argument in definition order, as returned by
Argument.__subclasses__(). -/
def argSubclasses : List ArgClass :=
  [ArgClass.fireArgumentCls, ArgClass.sacredArgumentCls, ArgClass.jsonArgumentCls]

/-- Model of str.lower applied character by character; exact on ASCII (the
class names and recognized variant names are ASCII; case mappings of
non-ASCII characters are not modelled). -/
def pyToLower (s : String) : String :=
  String.mk (s.data.map Char.toLower)

/-- Embedding of Argument.get (util.py lines 52-58).  The source builds the
registry comprehension with the key expression cls.__name__.lower() where
cls is the enclosing class Argument — not the comprehension variable c — so
every subclass is stored under the single key "argument" and later entries
overwrite earlier ones.  The lookup key is ((key or "") + "argument")
lowercased, with the class itself as the default on a miss. -/
def Argument.get (key : Option String) : ArgClass :=
  let registry := argSubclasses.foldl
    (fun d c => dinsert (pyToLower (argClassName ArgClass.argumentCls)) c d) []
  (alookup (pyToLower ((key.getD "") ++ "argument")) registry).getD
    ArgClass.argumentCls

/-- Values stored in dictionaries of the dict_merge heap model: a scalar
(any non-dictionary Python value, opaque to dict_merge) or a reference to
a dictionary living on the heap. -/
inductive HVal where
  | intv : Int → HVal
  | ref : Nat → HVal
  deriving Repr, DecidableEq

/-- Contents of one heap dictionary: an ordered association list. -/
abbrev HDict := List (String × HVal)

/-- Heap of dictionary objects; a reference is an index into the list and
allocation appends at the end. -/
abbrev Heap := List HDict

mutual

/-- Embedding of dict_merge (util.py lines 165-194) with explicit heap
state and fuel (every recursive call strictly decreases the fuel; any fuel
large enough for the nesting depth of the input gives the Python
behaviour, and None is returned only on fuel exhaustion or a dangling
reference).  A fresh empty dictionary mdict is allocated, every positional
dictionary is merged into it in order, then the keyword dictionary, and
the reference to mdict is returned together with the final heap. -/
def dict_merge : Nat → Heap → List Nat → HDict → Int → Option (Heap × Nat)
  | 0, _, _, _, _ => none
  | fuel + 1, h, ds, kw, depth =>
    let m := h.length
    match foldDicts fuel (h ++ [[]]) m ds depth with
    | none => none
    | some h2 =>
      match mergeList fuel h2 m kw depth with
      | none => none
      | some h3 => some (h3, m)

/-- Iteration of dict_merge over its positional dictionaries: each one is
read from the heap and merged into the accumulator dictionary ra. -/
def foldDicts : Nat → Heap → Nat → List Nat → Int → Option Heap
  | 0, _, _, _, _ => none
  | _ + 1, h, _, [], _ => some h
  | fuel + 1, h, ra, rb :: rest, depth =>
    match h[rb]? with
    | none => none
    | some db =>
      match mergeList fuel h ra db depth with
      | none => none
      | some h2 => foldDicts fuel h2 ra rest depth

/-- Embedding of the inner merge loop (util.py lines 183-189), iterating
the entries of dictb.  When the depth budget is nonzero, the key is
already present in dicta, and both sides hold dictionaries, the source
calls dict_merge on the two nested dictionaries — and discards the freshly
built result, leaving dicta unchanged at that key; otherwise the entry of
dictb is assigned into dicta.  (The source names the Mapping abstract base
class through the removed alias collections.Mapping; the membership test
it denotes is modelled.) -/
def mergeList : Nat → Heap → Nat → HDict → Int → Option Heap
  | 0, _, _, _, _ => none
  | _ + 1, h, _, [], _ => some h
  | fuel + 1, h, ra, (k, vb) :: rest, depth =>
    match h[ra]? with
    | none => none
    | some da =>
      match alookup k da, vb with
      | some (HVal.ref rA), HVal.ref rB =>
        if depth = 0 then
          mergeList fuel (h.set ra (dinsert k vb da)) ra rest depth
        else
          match dict_merge fuel h [rA, rB] [] (depth - 1) with
          | none => none
          | some (h2, _) => mergeList fuel h2 ra rest depth
      | _, _ => mergeList fuel (h.set ra (dinsert k vb da)) ra rest depth

end

/-- Pure nested dictionary trees, used to read back a heap dictionary as a
value for stating results of dict_merge. -/
inductive PTree where
  | intv : Int → PTree
  | dict : List (String × PTree) → PTree
  deriving Repr

mutual

/-- Reading of a heap dictionary as a pure nested tree (with fuel; any
fuel exceeding the nesting depth suffices on an acyclic heap). -/
def deepRead : Nat → Heap → Nat → Option PTree
  | 0, _, _ => none
  | fuel + 1, h, r =>
    match h[r]? with
    | none => none
    | some d =>
      match deepReadDict fuel h d with
      | none => none
      | some entries => some (PTree.dict entries)

/-- Reading of the entries of one heap dictionary as pure trees. -/
def deepReadDict : Nat → Heap → HDict → Option (List (String × PTree))
  | 0, _, _ => none
  | _ + 1, _, [] => some []
  | fuel + 1, h, (k, v) :: rest =>
    match
      (match v with
       | HVal.intv n => some (PTree.intv n)
       | HVal.ref r => deepRead fuel h r) with
    | none => none
    | some t =>
      match deepReadDict fuel h rest with
      | none => none
      | some ts => some ((k, t) :: ts)

end

/-- Initial heap for the dict_merge example of claim C3: reference 1 is the
first argument dictionary, holding at key a a reference to the nested
dictionary at index 0; reference 3 is the second argument, holding at key a
a reference to the nested dictionary at index 2. -/
def mergeInputHeap : Heap :=
  [[("x", HVal.intv 1)], [("a", HVal.ref 0)], [("y", HVal.intv 2)],
   [("a", HVal.ref 2)]]

/-!  Theorems settling the claims C1-C10.  -/

theorem sum_map_const_length {α : Type} (l : List α) (k : Nat) :
    (l.map (fun _ => k)).sum = l.length * k := by
  induction l with
  | nil => simp
  | cons a l ih => simp [ih, Nat.succ_mul, Nat.add_comm]

theorem length_itproduct {α : Type} (ls : List (List α)) :
    (itproduct ls).length = (ls.map List.length).prod := by
  induction ls with
  | nil => rfl
  | cons l ls ih =>
    simp only [itproduct, List.length_flatMap, List.map_cons, List.prod_cons,
      Function.comp_def, List.length_map]
    rw [sum_map_const_length, ih]

theorem mem_itproduct {α : Type} {ls : List (List α)} {p : List α}
    (hp : p ∈ itproduct ls) : List.Forall₂ (fun x l => x ∈ l) p ls := by
  induction ls generalizing p with
  | nil =>
    simp only [itproduct, List.mem_singleton] at hp
    subst hp
    exact List.Forall₂.nil
  | cons l ls ih =>
    simp only [itproduct, List.mem_flatMap, List.mem_map] at hp
    obtain ⟨x, hx, t, ht, rfl⟩ := hp
    exact List.Forall₂.cons hx (ih ht)

theorem flatMap_singleton_map {α : Type} (ys : List α) :
    ys.flatMap (fun y => [[y]]) = ys.map (fun y => [y]) := by
  induction ys with
  | nil => rfl
  | cons y ys ih => rw [List.flatMap_cons, ih]; rfl

theorem itproduct_singleton {α : Type} (ys : List α) :
    itproduct [ys] = ys.map (fun y => [y]) := by
  have h0 : itproduct [ys] = ys.flatMap (fun y => [[y]]) := rfl
  rw [h0, flatMap_singleton_map]

theorem itproduct_pair_getElem {α : Type} (xs ys : List α) (i j : Nat)
    (hi : i < xs.length) (hj : j < ys.length) :
    (itproduct [xs, ys])[i * ys.length + j]? = some [xs[i], ys[j]] := by
  induction xs generalizing i with
  | nil => simp at hi
  | cons x xs ih =>
    have hblock : ((itproduct [ys]).map (fun t => x :: t)).length = ys.length := by
      simp [itproduct_singleton]
    rw [show itproduct [x :: xs, ys]
          = (itproduct [ys]).map (fun t => x :: t) ++ itproduct [xs, ys] from by
        simp [itproduct, List.flatMap_cons]]
    cases i with
    | zero =>
      rw [List.getElem?_append_left (by rw [hblock]; omega)]
      simp only [itproduct_singleton, List.map_map]
      rw [List.getElem?_map]
      simp [List.getElem?_eq_getElem hj]
    | succ i2 =>
      have hmul : (i2 + 1) * ys.length = i2 * ys.length + ys.length := by ring
      rw [List.getElem?_append_right (by rw [hblock]; omega)]
      rw [hblock]
      rw [show (i2 + 1) * ys.length + j - ys.length = i2 * ys.length + j by omega]
      simp only [List.length_cons] at hi
      exact ih i2 (by omega)

theorem mapME_ok_of_forall {α β : Type} {f : α → Except PyErr β} {l : List α}
    (h : ∀ a ∈ l, ∃ b, f a = Except.ok b) :
    ∃ bs, mapME f l = Except.ok bs ∧ bs.length = l.length ∧
      ∀ i : Nat, bs[i]? = l[i]?.bind (fun a => (f a).toOption) := by
  induction l with
  | nil => exact ⟨[], rfl, rfl, fun i => by simp⟩
  | cons a l ih =>
    obtain ⟨b, hb⟩ := h a (List.mem_cons_self a l)
    obtain ⟨bs, hbs, hlen, hget⟩ := ih (fun x hx => h x (List.mem_cons_of_mem a hx))
    refine ⟨b :: bs, ?_, by simp [hlen], fun i => ?_⟩
    · simp [mapME, hb, hbs]
    · cases i with
      | zero => simp [hb, Except.toOption]
      | succ i2 => simp only [List.getElem?_cons_succ]; exact hget i2

theorem getElem?_zip_eq {α β : Type} {l1 : List α} {l2 : List β} {i : Nat}
    {p : α × β} (h : (l1.zip l2)[i]? = some p) :
    l1[i]? = some p.1 ∧ l2[i]? = some p.2 := by
  induction l1 generalizing l2 i with
  | nil => simp [List.zip] at h
  | cons a l1 ih =>
    cases l2 with
    | nil => simp [List.zip] at h
    | cons b l2 =>
      cases i with
      | zero =>
        simp only [List.zip_cons_cons, List.getElem?_cons_zero, Option.some.injEq] at h
        subst h
        exact ⟨by simp, by simp⟩
      | succ i2 =>
        simp only [List.zip_cons_cons, List.getElem?_cons_succ] at h ⊢
        exact ih h

theorem forall2_getElem? {α β : Type} {R : α → β → Prop} :
    ∀ {i : Nat} {as : List α} {bs : List β} {a : α} {b : β},
      List.Forall₂ R as bs → as[i]? = some a → bs[i]? = some b → R a b := by
  intro i
  induction i with
  | zero =>
    intro as bs a b hf ha hb
    cases hf with
    | nil => exact absurd ha (by simp)
    | cons hr _ =>
      rw [List.getElem?_cons_zero, Option.some.injEq] at ha hb
      exact ha ▸ hb ▸ hr
  | succ i2 ih =>
    intro as bs a b hf ha hb
    cases hf with
    | nil => exact absurd ha (by simp)
    | cons _ htail =>
      rw [List.getElem?_cons_succ] at ha hb
      exact ih htail ha hb

/-- Well-formedness of a parameter specification, following the data-model
invariant of the specification: every element of the value sequence of a
paired axis is a tuple whose arity equals the name count of the axis. -/
def wfSpec (params : List (AxisKey × List PyVal)) : Bool :=
  params.all (fun p =>
    match p.1 with
    | AxisKey.single _ => true
    | AxisKey.pair ns =>
      p.2.all (fun v =>
        match v with
        | PyVal.tuple vs => vs.length == ns.length
        | _ => false))

theorem epp_loop_ok (pairs : List (AxisKey × PyVal))
    (h : ∀ q ∈ pairs, ∀ ns, q.1 = AxisKey.pair ns → (pyIterElems q.2).isSome) :
    ∀ acc, ∃ d, epp_loop pairs acc = Except.ok d := by
  induction pairs with
  | nil => exact fun acc => ⟨acc, rfl⟩
  | cons q rest ih =>
    intro acc
    obtain ⟨k, v⟩ := q
    cases k with
    | single n => exact ih (fun q hq => h q (List.mem_cons_of_mem _ hq)) _
    | pair ns =>
      have hit := h (AxisKey.pair ns, v) (List.mem_cons_self _ _) ns rfl
      obtain ⟨vs, hvs⟩ := Option.isSome_iff_exists.mp hit
      simp only [epp_loop, hvs]
      exact ih (fun q hq => h q (List.mem_cons_of_mem _ hq)) _

/-- Weaker well-formedness of a parameter specification: every element of
the value sequence of a paired axis is a tuple, of any arity — in
particular arity mismatches are allowed.  This is the condition under
which expansion runs without a TypeError from zip. -/
def pairedTuplesSpec (params : List (AxisKey × List PyVal)) : Bool :=
  params.all (fun p =>
    match p.1 with
    | AxisKey.single _ => true
    | AxisKey.pair _ =>
      p.2.all (fun v =>
        match v with
        | PyVal.tuple _ => true
        | _ => false))

theorem pairedTuples_of_wf {params : List (AxisKey × List PyVal)}
    (h : wfSpec params = true) : pairedTuplesSpec params = true := by
  unfold wfSpec at h
  unfold pairedTuplesSpec
  rw [List.all_eq_true] at h ⊢
  intro p hp
  have hpe := h p hp
  cases hk : p.1 with
  | single n => simp [hk]
  | pair ns =>
    rw [hk] at hpe
    simp only [hk]
    rw [List.all_eq_true] at hpe ⊢
    intro v hv
    have := hpe v hv
    cases v <;> simp_all

/-- Names contributed by one axis key after flattening. -/
def axisNames : AxisKey → List String
  | AxisKey.single n => [n]
  | AxisKey.pair ns => ns

/-- All parameter names of a specification, in axis order, each paired
axis contributing its tuple of names in position order. -/
def specKeys (params : List (AxisKey × List PyVal)) : List String :=
  params.flatMap (fun p => axisNames p.1)

/-- Flattened name-value assignment sequence of one grid point, in the
order in which expand_paired_params performs its dictionary assignments
(util.py lines 127-133): a plain axis contributes its single binding, a
paired axis the zip of its names with the elements of its value tuple —
truncated to the shorter of the two lengths — in position order. -/
def flatBinds : List (AxisKey × PyVal) → List (String × PyVal)
  | [] => []
  | (AxisKey.single n, v) :: rest => (n, v) :: flatBinds rest
  | (AxisKey.pair ns, v) :: rest =>
    (match v with
     | PyVal.tuple vs => ns.zip vs
     | _ => []) ++ flatBinds rest

theorem flatBinds_append (as bs : List (AxisKey × PyVal)) :
    flatBinds (as ++ bs) = flatBinds as ++ flatBinds bs := by
  induction as with
  | nil => rfl
  | cons q as ih =>
    obtain ⟨k, v⟩ := q
    cases k with
    | single n => simp [flatBinds, ih]
    | pair ns => simp [flatBinds, ih]

/-- On every grid-point pair list coming from a specification whose paired
values are tuples, each paired key carries a tuple value. -/
theorem zip_pairs_tuples {params : List (AxisKey × List PyVal)}
    (hpt : pairedTuplesSpec params = true) {ps : List PyVal}
    (hf2 : List.Forall₂ (fun v vs => v ∈ vs) ps (params.map Prod.snd)) :
    ∀ q ∈ (params.map Prod.fst).zip ps, ∀ ns, q.1 = AxisKey.pair ns →
      ∃ vs, q.2 = PyVal.tuple vs := by
  rintro ⟨k2, v2⟩ hq ns hns
  obtain ⟨i, hqi⟩ := List.mem_iff_getElem?.mp hq
  obtain ⟨hk, hv⟩ := getElem?_zip_eq hqi
  rw [List.getElem?_map] at hk
  obtain ⟨pe, hpe, hpek⟩ : ∃ pe, params[i]? = some pe ∧ pe.1 = k2 := by
    cases hpq : params[i]? with
    | none => rw [hpq] at hk; simp at hk
    | some pe =>
      rw [hpq] at hk
      simp at hk
      exact ⟨pe, rfl, hk⟩
  have hsnd : (params.map Prod.snd)[i]? = some pe.2 := by
    rw [List.getElem?_map, hpe]; rfl
  have hmem : v2 ∈ pe.2 :=
    forall2_getElem? (R := fun (x : PyVal) (l : List PyVal) => x ∈ l) hf2 hv hsnd
  have hwfe := (List.all_eq_true.mp hpt) pe (List.getElem?_mem hpe)
  have hns2 : k2 = AxisKey.pair ns := hns
  rw [hpek, hns2] at hwfe
  have hv2 := (List.all_eq_true.mp hwfe) v2 hmem
  cases v2 with
  | tuple vs => exact ⟨vs, rfl⟩
  | int n => simp at hv2
  | bool b => simp at hv2
  | str s => simp at hv2
  | list xs => simp at hv2
  | dict d => simp at hv2

/-- General success of expansion: for every non-empty specification whose
paired values are tuples (any arity), expansion succeeds, the combo count
is the product of the value-sequence lengths, and combo i is the
flattening of product tuple i. -/
theorem expand_ok_of_pairedTuples (params : List (AxisKey × List PyVal))
    (hpt : pairedTuplesSpec params = true) (hne : params.isEmpty = false) :
    ∃ l, expand_param_grid params = Except.ok l ∧
      l.length = (params.map (fun p => p.2.length)).prod ∧
      ∀ i : Nat, l[i]? = (itproduct (params.map Prod.snd))[i]?.bind
        (fun ps => (expand_paired_params ((params.map Prod.fst).zip ps)).toOption) := by
  have hforall : ∀ ps ∈ itproduct (params.map Prod.snd),
      ∃ d, expand_paired_params ((params.map Prod.fst).zip ps) = Except.ok d := by
    intro ps hps
    have htup := zip_pairs_tuples hpt (mem_itproduct hps)
    apply epp_loop_ok
    intro q hq ns hns
    obtain ⟨vs, hvs⟩ := htup q hq ns hns
    rw [hvs]
    simp [pyIterElems]
  obtain ⟨bs, hbs, hlen, hget⟩ := mapME_ok_of_forall hforall
  refine ⟨bs, ?_, ?_, hget⟩
  · unfold expand_param_grid
    rw [hne]
    simpa using hbs
  · rw [hlen, length_itproduct, List.map_map]
    rfl

/-- Every combo of a successful expansion is the flattening of a product
tuple drawing one value from each axis in order. -/
theorem expand_combo_mem {params : List (AxisKey × List PyVal)}
    {l : List (List (String × PyVal))}
    (hget : ∀ i : Nat, l[i]? = (itproduct (params.map Prod.snd))[i]?.bind
      (fun ps => (expand_paired_params ((params.map Prod.fst).zip ps)).toOption))
    {d : List (String × PyVal)} (hd : d ∈ l) :
    ∃ ps, List.Forall₂ (fun v vs => v ∈ vs) ps (params.map Prod.snd) ∧
      expand_paired_params ((params.map Prod.fst).zip ps) = Except.ok d := by
  obtain ⟨i, hdi⟩ := List.mem_iff_getElem?.mp hd
  have h := hget i
  rw [hdi] at h
  cases hpi : (itproduct (params.map Prod.snd))[i]? with
  | none => rw [hpi] at h; simp at h
  | some ps =>
    rw [hpi] at h
    have h2 : some d =
        (expand_paired_params ((params.map Prod.fst).zip ps)).toOption := h
    refine ⟨ps, mem_itproduct (List.getElem?_mem hpi), ?_⟩
    cases he : expand_paired_params ((params.map Prod.fst).zip ps) with
    | error e => rw [he] at h2; simp [Except.toOption] at h2
    | ok d2 =>
      rw [he] at h2
      simp [Except.toOption] at h2
      rw [h2]

theorem dinsert_alookup {α : Type} (k0 : String) (v0 : α)
    (m : List (String × α)) (k : String) :
    alookup k (dinsert k0 v0 m) = if k0 = k then some v0 else alookup k m := by
  induction m with
  | nil => rfl
  | cons p rest ih =>
    obtain ⟨k2, v2⟩ := p
    by_cases h2 : k2 = k0
    · subst h2
      by_cases hk : k2 = k <;> simp [dinsert, alookup, hk]
    · by_cases hk : k2 = k
      · subst hk
        have hne : k0 ≠ k2 := fun he => h2 he.symm
        simp [dinsert, if_neg h2, alookup, hne]
      · simp [dinsert, if_neg h2, alookup, if_neg hk, ih]

theorem alookup_append {α : Type} (k : String) (l1 l2 : List (String × α)) :
    alookup k (l1 ++ l2) =
      match alookup k l1 with
      | some v => some v
      | none => alookup k l2 := by
  induction l1 with
  | nil => rfl
  | cons p rest ih =>
    obtain ⟨k2, v2⟩ := p
    by_cases hk : k2 = k <;> simp [alookup, hk, ih]

theorem alookup_eq_none_of_not_mem {α : Type} {k : String}
    {l : List (String × α)} (h : k ∉ l.map Prod.fst) : alookup k l = none := by
  induction l with
  | nil => rfl
  | cons p rest ih =>
    simp only [List.map_cons, List.mem_cons] at h
    push_neg at h
    obtain ⟨k2, v2⟩ := p
    have hne : k2 ≠ k := fun he => h.1 he.symm
    simp only [alookup, if_neg hne]
    exact ih h.2

theorem alookup_perm {α : Type} {l1 l2 : List (String × α)} (hperm : l1.Perm l2) :
    (l1.map Prod.fst).Nodup → ∀ k, alookup k l1 = alookup k l2 := by
  induction hperm with
  | nil => intro _ _; rfl
  | cons x h ih =>
    intro hnd k
    obtain ⟨x1, x2⟩ := x
    simp only [List.map_cons, List.nodup_cons] at hnd
    by_cases hx : x1 = k
    · simp [alookup, hx]
    · simp only [alookup, if_neg hx]
      exact ih hnd.2 k
  | swap x y l =>
    intro hnd k
    obtain ⟨x1, x2⟩ := x
    obtain ⟨y1, y2⟩ := y
    simp only [List.map_cons, List.nodup_cons, List.mem_cons] at hnd
    have hxy : y1 ≠ x1 := fun he => hnd.1 (Or.inl he)
    by_cases hy : y1 = k <;> by_cases hx : x1 = k
    · exact absurd (hy.trans hx.symm) hxy
    · simp [alookup, hy, hx]
    · simp [alookup, hy, hx]
    · simp [alookup, hy, hx]
  | trans h12 h23 ih1 ih2 =>
    intro hnd k
    have hnd2 := hnd.perm (h12.map Prod.fst)
    exact (ih1 hnd k).trans (ih2 hnd2 k)

theorem alookup_reverse_nodup {α : Type} {l : List (String × α)}
    (hnd : (l.map Prod.fst).Nodup) (k : String) :
    alookup k l.reverse = alookup k l :=
  alookup_perm l.reverse_perm
    (hnd.perm (l.reverse_perm.map Prod.fst).symm) k

theorem foldl_dinsert_alookup {α : Type} (binds : List (String × α)) :
    ∀ (acc : List (String × α)) (k : String),
      alookup k (binds.foldl (fun ps p => dinsert p.1 p.2 ps) acc) =
        match alookup k binds.reverse with
        | some v => some v
        | none => alookup k acc := by
  induction binds with
  | nil => intro acc k; rfl
  | cons b rest ih =>
    intro acc k
    simp only [List.foldl_cons, List.reverse_cons]
    rw [ih (dinsert b.1 b.2 acc) k, dinsert_alookup,
      alookup_append k rest.reverse [b]]
    cases alookup k rest.reverse with
    | some v => rfl
    | none =>
      by_cases hb : b.1 = k
      · simp [alookup, hb]
      · simp [alookup, hb]

/-- The flattening loop is exactly the fold of dictionary assignments over
the flattened binding sequence, whenever every paired key holds a tuple
value. -/
theorem epp_loop_eq_foldl (pairs : List (AxisKey × PyVal))
    (hpt : ∀ q ∈ pairs, ∀ ns, q.1 = AxisKey.pair ns → ∃ vs, q.2 = PyVal.tuple vs) :
    ∀ acc, epp_loop pairs acc =
      Except.ok ((flatBinds pairs).foldl (fun ps p => dinsert p.1 p.2 ps) acc) := by
  induction pairs with
  | nil => intro acc; rfl
  | cons q rest ih =>
    intro acc
    obtain ⟨k2, v2⟩ := q
    cases k2 with
    | single n =>
      simp only [epp_loop, flatBinds, List.foldl_cons]
      exact ih (fun q hq => hpt q (List.mem_cons_of_mem _ hq)) _
    | pair ns =>
      obtain ⟨vs, hvs⟩ := hpt (AxisKey.pair ns, v2) (List.mem_cons_self _ _) ns rfl
      subst hvs
      simp only [epp_loop, pyIterElems, flatBinds, List.foldl_append]
      exact ih (fun q hq => hpt q (List.mem_cons_of_mem _ hq)) _

theorem map_fst_zip_eq_take {α β : Type} (ns : List α) (vs : List β) :
    (ns.zip vs).map Prod.fst = ns.take vs.length := by
  induction ns generalizing vs with
  | nil => simp
  | cons n ns ih =>
    cases vs with
    | nil => simp
    | cons v vs => simp [List.zip_cons_cons, ih]

/-- Keys of the flattened binding sequence form a sublist of the flattened
axis names. -/
theorem flatBinds_keys_sublist (pairs : List (AxisKey × PyVal)) :
    ((flatBinds pairs).map Prod.fst).Sublist
      (pairs.flatMap (fun q => axisNames q.1)) := by
  induction pairs with
  | nil => exact List.Sublist.refl _
  | cons q rest ih =>
    obtain ⟨k2, v2⟩ := q
    cases k2 with
    | single n =>
      simp only [flatBinds, List.map_cons, List.flatMap_cons, axisNames]
      exact List.Sublist.cons₂ n ih
    | pair ns =>
      simp only [flatBinds, List.map_append, List.flatMap_cons, axisNames]
      refine List.Sublist.append ?_ ih
      cases v2 with
      | tuple vs =>
        show ((ns.zip vs).map Prod.fst).Sublist ns
        rw [map_fst_zip_eq_take]
        exact List.take_sublist vs.length ns
      | int n => exact List.nil_sublist ns
      | bool b => exact List.nil_sublist ns
      | str s => exact List.nil_sublist ns
      | list xs => exact List.nil_sublist ns
      | dict dd => exact List.nil_sublist ns

/-- Flattened axis names of a grid-point pair list coincide with the
specification keys, whenever the value tuple is long enough. -/
theorem pairsNames_eq (keys : List AxisKey) :
    ∀ ps : List PyVal, keys.length ≤ ps.length →
      ((keys.zip ps).flatMap (fun q => axisNames q.1)) = keys.flatMap axisNames := by
  induction keys with
  | nil => intro ps _; rfl
  | cons k2 keys ih =>
    intro ps hlen
    cases ps with
    | nil => simp at hlen
    | cons v ps =>
      simp only [List.zip_cons_cons, List.flatMap_cons]
      rw [ih ps (by simpa using hlen)]

theorem forall2_split_right {α β : Type} {R : α → β → Prop} :
    ∀ {bs1 : List β} {as : List α} {b : β} {bs2 : List β},
      List.Forall₂ R as (bs1 ++ b :: bs2) →
      ∃ as1 a as2, as = as1 ++ a :: as2 ∧ List.Forall₂ R as1 bs1 ∧ R a b ∧
        List.Forall₂ R as2 bs2 ∧ as1.length = bs1.length := by
  intro bs1
  induction bs1 with
  | nil =>
    intro as b bs2 h
    cases h with
    | cons hr htail => exact ⟨[], _, _, rfl, List.Forall₂.nil, hr, htail, rfl⟩
  | cons b1 bs1 ih =>
    intro as b bs2 h
    cases h with
    | cons hr htail =>
      obtain ⟨as1, a, as2, rfl, hf1, hab, hf2, hlen⟩ := ih htail
      exact ⟨_ :: as1, a, as2, rfl, List.Forall₂.cons hr hf1, hab, hf2,
        by simp [hlen]⟩

/-- C1: for every non-empty well-formed parameter specification, grid
expansion succeeds and the number of combos equals the product of the
lengths of the value sequences of the axes. -/
theorem C1_expand_count (params : List (AxisKey × List PyVal))
    (hwf : wfSpec params = true) (hne : params.isEmpty = false) :
    ∃ l, expand_param_grid params = Except.ok l ∧
      l.length = (params.map (fun p => p.2.length)).prod := by
  have hforall : ∀ ps ∈ itproduct (params.map Prod.snd),
      ∃ d, expand_paired_params ((params.map Prod.fst).zip ps) = Except.ok d := by
    intro ps hps
    have hf2 := mem_itproduct hps
    apply epp_loop_ok
    rintro ⟨k2, v2⟩ hq ns hns
    obtain ⟨i, hqi⟩ := List.mem_iff_getElem?.mp hq
    obtain ⟨hk, hv⟩ := getElem?_zip_eq hqi
    rw [List.getElem?_map] at hk
    obtain ⟨pe, hpe, hpek⟩ : ∃ pe, params[i]? = some pe ∧ pe.1 = k2 := by
      cases hpq : params[i]? with
      | none => rw [hpq] at hk; simp at hk
      | some pe =>
        rw [hpq] at hk
        simp at hk
        exact ⟨pe, rfl, hk⟩
    have hsnd : (params.map Prod.snd)[i]? = some pe.2 := by
      rw [List.getElem?_map, hpe]; rfl
    have hmem : v2 ∈ pe.2 :=
      forall2_getElem? (R := fun (x : PyVal) (l : List PyVal) => x ∈ l) hf2 hv hsnd
    have hwfe := (List.all_eq_true.mp hwf) pe (List.getElem?_mem hpe)
    have hns2 : k2 = AxisKey.pair ns := hns
    rw [hpek, hns2] at hwfe
    have hv2 := (List.all_eq_true.mp hwfe) v2 hmem
    cases v2 with
    | tuple vs => simp [pyIterElems]
    | int n => simp at hv2
    | bool b => simp at hv2
    | str s => simp at hv2
    | list xs => simp at hv2
    | dict d => simp at hv2
  obtain ⟨bs, hbs, hlen, _⟩ := mapME_ok_of_forall hforall
  refine ⟨bs, ?_, ?_⟩
  · unfold expand_param_grid
    rw [hne]
    simpa using hbs
  · rw [hlen, length_itproduct, List.map_map]
    rfl

/-- Specification from the docstring of expand_param_grid, used as the
concrete instance for claim C1. -/
def docSpec : List (AxisKey × List PyVal) :=
  [(AxisKey.single "latent_dim", [PyVal.int 1, PyVal.int 2, PyVal.int 4]),
   (AxisKey.pair ["a", "b"],
     [PyVal.tuple [PyVal.int 1, PyVal.int 3],
      PyVal.tuple [PyVal.int 2, PyVal.int 5]]),
   (AxisKey.single "lets_overfit", [PyVal.bool true])]

/-- Witness for C1: the docstring specification is well formed and
non-empty, and its expansion has 3 * 2 * 1 = 6 combos. -/
theorem C1_expand_count_witness :
    wfSpec docSpec = true ∧ docSpec.isEmpty = false ∧
      ∃ l, expand_param_grid docSpec = Except.ok l ∧
        l.length = (docSpec.map (fun p => p.2.length)).prod :=
  ⟨by decide, rfl, C1_expand_count docSpec (by decide) rfl⟩

theorem flatMap_block_getElem {α β : Type} (f : α → List β) (B : Nat)
    (hB : ∀ x, (f x).length = B) :
    ∀ (l : List α) (q r : Nat) (x : α), l[q]? = some x → r < B →
      (l.flatMap f)[q * B + r]? = (f x)[r]? := by
  intro l
  induction l with
  | nil => intro q r x hq; simp at hq
  | cons a l ih =>
    intro q r x hq hr
    rw [List.flatMap_cons]
    cases q with
    | zero =>
      simp only [List.getElem?_cons_zero, Option.some.injEq] at hq
      subst hq
      rw [Nat.zero_mul, Nat.zero_add]
      exact List.getElem?_append_left (by rw [hB]; exact hr)
    | succ q2 =>
      rw [List.getElem?_cons_succ] at hq
      have hmul : (q2 + 1) * B = q2 * B + B := by ring
      rw [List.getElem?_append_right (by rw [hB a]; omega)]
      rw [hB a]
      rw [show (q2 + 1) * B + r - B = q2 * B + r by omega]
      exact ih q2 r x hq hr

/-- Splitting of a product of lengths at a given axis index. -/
theorem prod_split_at {α : Type} (ls : List (List α)) (j : Nat) (lj : List α)
    (hj : ls[j]? = some lj) :
    (ls.map List.length).prod =
      ((ls.take j).map List.length).prod *
        (lj.length * ((ls.drop (j + 1)).map List.length).prod) := by
  obtain ⟨hjl, hget⟩ := List.getElem?_eq_some.mp hj
  rw [← hget]
  conv_lhs => rw [← List.take_append_drop j ls]
  rw [List.drop_eq_getElem_cons hjl]
  rw [List.map_append, List.prod_append, List.map_cons, List.prod_cons]

/-- Reduction of a digit of a mixed-radix index modulo the enclosing
block: taking the index modulo the whole block size does not change any
digit inside the block. -/
theorem mod_div_mod_eq {B C L P : Nat} (i : Nat) (hB : B = P * (L * C))
    (hC : 0 < C) (hBpos : 0 < B) :
    ((i % B) / C) % L = (i / C) % L := by
  have hL : 0 < L := by
    rcases Nat.eq_zero_or_pos L with h0 | h
    · rw [h0] at hB; simp at hB; omega
    · exact h
  conv_rhs => rw [← Nat.div_add_mod i B]
  have hBe : B * (i / B) = C * (P * L * (i / B)) := by rw [hB]; ring
  rw [hBe, Nat.mul_add_div hC]
  have hPL : P * L * (i / B) = L * (P * (i / B)) := by ring
  rw [hPL, Nat.mul_add_mod]

/-- The element at index i of the cartesian product of a list of value
sequences, characterized by the mixed-radix digits of i: axis j
contributes its element at index (i divided by the product of the lengths
of the later axes) modulo its own length — the axis-major order with the
rightmost axis varying fastest. -/
theorem itproduct_getElem_at {α : Type} :
    ∀ (ls : List (List α)) (i : Nat), i < (ls.map List.length).prod →
    ∃ t, (itproduct ls)[i]? = some t ∧ t.length = ls.length ∧
      ∀ (j : Nat) (lj : List α), ls[j]? = some lj →
        t[j]? = lj[(i / ((ls.drop (j + 1)).map List.length).prod) % lj.length]? := by
  intro ls
  induction ls with
  | nil =>
    intro i hi
    simp only [List.map_nil, List.prod_nil] at hi
    have hi0 : i = 0 := by omega
    subst hi0
    exact ⟨[], rfl, rfl, fun j lj hj => by simp at hj⟩
  | cons l ls ih =>
    intro i hi
    simp only [List.map_cons, List.prod_cons] at hi
    have hBpos : 0 < (ls.map List.length).prod := by
      rcases Nat.eq_zero_or_pos ((ls.map List.length).prod) with h0 | h
      · rw [h0, Nat.mul_zero] at hi; omega
      · exact h
    have hq : i / (ls.map List.length).prod < l.length :=
      (Nat.div_lt_iff_lt_mul hBpos).mpr hi
    have hr : i % (ls.map List.length).prod < (ls.map List.length).prod :=
      Nat.mod_lt i hBpos
    obtain ⟨t2, ht2, hlen2, hdig2⟩ := ih (i % (ls.map List.length).prod) hr
    have hx : l[i / (ls.map List.length).prod]? =
        some l[i / (ls.map List.length).prod] := List.getElem?_eq_getElem hq
    have hblock : ∀ x : α,
        ((itproduct ls).map (fun tt => x :: tt)).length =
          (ls.map List.length).prod := by
      intro x
      rw [List.length_map, length_itproduct]
    have hstep := flatMap_block_getElem
      (fun x => (itproduct ls).map (fun tt => x :: tt))
      ((ls.map List.length).prod) hblock l
      (i / (ls.map List.length).prod) (i % (ls.map List.length).prod)
      l[i / (ls.map List.length).prod] hx hr
    have hidx : (i / (ls.map List.length).prod) * (ls.map List.length).prod +
        i % (ls.map List.length).prod = i := by
      rw [Nat.mul_comm]
      exact Nat.div_add_mod i ((ls.map List.length).prod)
    refine ⟨l[i / (ls.map List.length).prod] :: t2, ?_, by simp [hlen2], ?_⟩
    · have hun : itproduct (l :: ls) =
          l.flatMap (fun x => (itproduct ls).map (fun tt => x :: tt)) := rfl
      rw [hidx] at hstep
      rw [hun, hstep, List.getElem?_map, ht2]
      rfl
    · intro j lj hj
      cases j with
      | zero =>
        simp only [List.getElem?_cons_zero, Option.some.injEq] at hj
        subst hj
        rw [List.getElem?_cons_zero]
        have hdrop : List.drop (0 + 1) (l :: ls) = ls := rfl
        rw [hdrop, Nat.mod_eq_of_lt hq, List.getElem?_eq_getElem hq]
      | succ j2 =>
        rw [List.getElem?_cons_succ] at hj
        rw [List.getElem?_cons_succ, hdig2 j2 lj hj]
        have hdrop : (l :: ls).drop (j2 + 2) = ls.drop (j2 + 1) := rfl
        rw [hdrop]
        congr 1
        have hC : 0 < ((ls.drop (j2 + 1)).map List.length).prod := by
          rcases Nat.eq_zero_or_pos (((ls.drop (j2 + 1)).map List.length).prod)
            with h0 | h
          · rw [prod_split_at ls j2 lj hj, h0] at hBpos
            simp at hBpos
          · exact h
        exact mod_div_mod_eq i (prod_split_at ls j2 lj hj) hC hBpos

/-- C2: grid expansion enumerates combos in cartesian-product order with
the rightmost axis varying fastest.  First conjunct: the concrete
two-axis example of the claim expands to exactly the four combos in the
claimed order.  Second conjunct: for EVERY non-empty well-formed
specification — any number of axes, paired axes included — and every index
i below the total count, combo i of the expansion is exactly the
flattening of the i-th tuple of the axis-major cartesian product of the
value sequences in axis order, where that tuple is pinned down by the
mixed-radix digits of i: axis j contributes its value at index
(i / product of the lengths of the axes after j) mod its own length — the
rightmost axis varying fastest. -/
theorem C2_expand_order :
    (expand_param_grid
        [(AxisKey.single "a", [PyVal.int 1, PyVal.int 2]),
         (AxisKey.single "b", [PyVal.int 3, PyVal.int 4])] =
      Except.ok
        [[("a", PyVal.int 1), ("b", PyVal.int 3)],
         [("a", PyVal.int 1), ("b", PyVal.int 4)],
         [("a", PyVal.int 2), ("b", PyVal.int 3)],
         [("a", PyVal.int 2), ("b", PyVal.int 4)]]) ∧
    ∀ (params : List (AxisKey × List PyVal)),
      wfSpec params = true → params.isEmpty = false →
      ∀ i : Nat, i < (params.map (fun p => p.2.length)).prod →
      ∃ l t d, expand_param_grid params = Except.ok l ∧
        l.length = (params.map (fun p => p.2.length)).prod ∧
        (itproduct (params.map Prod.snd))[i]? = some t ∧
        t.length = params.length ∧
        (∀ (j : Nat) (vsj : List PyVal), (params.map Prod.snd)[j]? = some vsj →
          t[j]? = vsj[(i / (((params.map Prod.snd).drop (j + 1)).map
            List.length).prod) % vsj.length]?) ∧
        expand_paired_params ((params.map Prod.fst).zip t) = Except.ok d ∧
        l[i]? = some d := by
  constructor
  · rfl
  · intro params hwf hne i hi
    obtain ⟨l, hl, hlen, hget⟩ :=
      expand_ok_of_pairedTuples params (pairedTuples_of_wf hwf) hne
    have hconv : ((params.map Prod.snd).map List.length).prod
        = (params.map (fun p => p.2.length)).prod := by
      rw [List.map_map]; rfl
    obtain ⟨t, ht, htlen, hdig⟩ := itproduct_getElem_at (params.map Prod.snd) i
      (by rw [hconv]; exact hi)
    have hmem := List.getElem?_mem ht
    have htup := zip_pairs_tuples (pairedTuples_of_wf hwf) (mem_itproduct hmem)
    obtain ⟨d, hd⟩ : ∃ d,
        expand_paired_params ((params.map Prod.fst).zip t) = Except.ok d := by
      apply epp_loop_ok
      intro q hq ns hns
      obtain ⟨vs, hvs⟩ := htup q hq ns hns
      rw [hvs]
      simp [pyIterElems]
    refine ⟨l, t, d, hl, hlen, ht, by rw [htlen, List.length_map], hdig, hd, ?_⟩
    rw [hget i, ht]
    have hbind : (some t).bind (fun ps =>
        (expand_paired_params ((params.map Prod.fst).zip ps)).toOption)
        = (expand_paired_params ((params.map Prod.fst).zip t)).toOption := rfl
    rw [hbind, hd]
    rfl

/-- Witness for C2: the general ordering law applied to the 3-axis
docstring specification (a paired axis included) at combo index 3: digits
(1, 1, 0), so latent_dim is bound to 2, the paired axis (a, b) to (2, 5),
and lets_overfit to True — the fourth combo of the docstring. -/
theorem C2_expand_order_witness :
    wfSpec docSpec = true ∧ docSpec.isEmpty = false ∧
      3 < (docSpec.map (fun p => p.2.length)).prod ∧
      ∃ l t d, expand_param_grid docSpec = Except.ok l ∧
        l.length = (docSpec.map (fun p => p.2.length)).prod ∧
        (itproduct (docSpec.map Prod.snd))[3]? = some t ∧
        t.length = docSpec.length ∧
        (∀ (j : Nat) (vsj : List PyVal), (docSpec.map Prod.snd)[j]? = some vsj →
          t[j]? = vsj[(3 / (((docSpec.map Prod.snd).drop (j + 1)).map
            List.length).prod) % vsj.length]?) ∧
        expand_paired_params ((docSpec.map Prod.fst).zip t) = Except.ok d ∧
        l[3]? = some d :=
  ⟨by decide, rfl, by decide,
    C2_expand_order.2 docSpec (by decide) rfl 3 (by decide)⟩

/-- C3: evaluation of dict_merge on the two dictionaries of the claim.
With the default depth -1 the result read back as a value is
a ↦ (x ↦ 1) — NOT the claimed a ↦ (x ↦ 1, y ↦ 2): the recursive branch of
the source calls dict_merge on the two nested dictionaries and discards
the freshly built merged dictionary, so the entry of the first argument
survives unchanged, contradicting the docstring of dict_merge.  With
depth 0 the claimed wholesale overwrite a ↦ (y ↦ 2) does hold. -/
theorem C3_dict_merge_discards_nested_merge :
    ((dict_merge 32 mergeInputHeap [1, 3] [] (-1)).bind
        (fun p => deepRead 32 p.1 p.2) =
      some (PTree.dict [("a", PTree.dict [("x", PTree.intv 1)])])) ∧
    ((dict_merge 32 mergeInputHeap [1, 3] [] 0).bind
        (fun p => deepRead 32 p.1 p.2) =
      some (PTree.dict [("a", PTree.dict [("y", PTree.intv 2)])])) :=
  ⟨rfl, rfl⟩

/-- C4: counterexample to the claim that a paired axis whose key tuple
length differs from a value tuple length makes grid expansion fail.  The
axis (a, b) with the three-element value tuple (1, 2, 3) expands without
any error to the combo a ↦ 1, b ↦ 2: zip silently truncates, and no
ArityMismatchError exists in the source. -/
theorem C4_no_arity_error_counterexample :
    expand_param_grid
        [(AxisKey.pair ["a", "b"],
          [PyVal.tuple [PyVal.int 1, PyVal.int 2, PyVal.int 3]])] =
      Except.ok [[("a", PyVal.int 1), ("b", PyVal.int 2)]] := rfl

theorem dinsert_append_of_not_mem {α : Type} (k : String) (v : α)
    (acc : List (String × α)) (h : k ∉ acc.map Prod.fst) :
    dinsert k v acc = acc ++ [(k, v)] := by
  induction acc with
  | nil => rfl
  | cons p acc ih =>
    simp only [List.map_cons, List.mem_cons] at h
    push_neg at h
    obtain ⟨p1, p2⟩ := p
    have hne : p1 ≠ k := fun he => h.1 he.symm
    simp only [dinsert, if_neg hne, List.cons_append]
    rw [ih h.2]

theorem foldl_dinsert_nodup {α : Type} (zs : List (String × α)) :
    ∀ acc : List (String × α), (zs.map Prod.fst).Nodup →
    (∀ k ∈ zs.map Prod.fst, k ∉ acc.map Prod.fst) →
    zs.foldl (fun ps p => dinsert p.1 p.2 ps) acc = acc ++ zs := by
  induction zs with
  | nil => intro acc _ _; simp
  | cons z zs ih =>
    intro acc hnd hdisj
    simp only [List.map_cons, List.nodup_cons] at hnd
    simp only [List.foldl_cons]
    rw [dinsert_append_of_not_mem z.1 z.2 acc
      (hdisj z.1 (by simp))]
    rw [ih (acc ++ [(z.1, z.2)]) hnd.2 ?_]
    · simp
    · intro k hk
      simp only [List.map_append, List.mem_append, List.map_cons, List.map_nil,
        List.mem_singleton]
      push_neg
      refine ⟨hdisj k (by simp [hk]), ?_⟩
      intro he
      exact hnd.1 (he ▸ hk)

theorem alookup_zip_nodup {α : Type} (ns : List String) (vs : List α)
    (hnd : ns.Nodup) :
    ∀ (i : Nat) (k : String) (v : α), ns[i]? = some k → vs[i]? = some v →
      alookup k (ns.zip vs) = some v := by
  induction ns generalizing vs with
  | nil => intro i k v hk; simp at hk
  | cons n ns ih =>
    intro i k v hk hv
    cases vs with
    | nil => simp at hv
    | cons w vs =>
      simp only [List.nodup_cons] at hnd
      cases i with
      | zero =>
        simp only [List.getElem?_cons_zero, Option.some.injEq] at hk hv
        subst hk; subst hv
        simp [List.zip_cons_cons, alookup]
      | succ i2 =>
        simp only [List.getElem?_cons_succ] at hk hv
        have hkne : n ≠ k := by
          intro he
          exact hnd.1 (he ▸ List.getElem?_mem hk)
        simp only [List.zip_cons_cons, alookup, if_neg hkne]
        exact ih vs hnd.2 i2 k v hk hv

/-- C4 amended: for EVERY specification containing a paired axis — at any
position, surrounded by arbitrary other axes — whose value tuples may have
any arity, including arities differing from the name count, grid expansion
does NOT fail: it produces the full product of combos, and in every combo
the names of that axis are bound positionally to the elements of the value
tuple chosen for it up to the shorter of the two lengths (the truncated
zip), while surplus names beyond the value arity are left unbound.  The
hypotheses are the data-model invariants other than the violated arity
one: paired values are tuples and flattened names are unique across
axes. -/
theorem C4_zip_truncates (pre post : List (AxisKey × List PyVal))
    (ns : List String) (vss : List PyVal)
    (hpt : pairedTuplesSpec (pre ++ (AxisKey.pair ns, vss) :: post) = true)
    (hnd : (specKeys (pre ++ (AxisKey.pair ns, vss) :: post)).Nodup) :
    ∃ l, expand_param_grid (pre ++ (AxisKey.pair ns, vss) :: post) =
        Except.ok l ∧
      l.length = ((pre ++ (AxisKey.pair ns, vss) :: post).map
        (fun p => p.2.length)).prod ∧
      ∀ d ∈ l, ∃ vs, PyVal.tuple vs ∈ vss ∧
        (∀ (idx : Nat) (k : String) (v : PyVal),
          ns[idx]? = some k → vs[idx]? = some v → alookup k d = some v) ∧
        (∀ (idx : Nat) (k : String),
          ns[idx]? = some k → vs.length ≤ idx → alookup k d = none) := by
  set params := pre ++ (AxisKey.pair ns, vss) :: post with hparams
  have hne : params.isEmpty = false := by
    rw [hparams]; cases pre <;> rfl
  obtain ⟨l, hl, hlen, hget⟩ := expand_ok_of_pairedTuples params hpt hne
  have hkeys : specKeys params = specKeys pre ++ (ns ++ specKeys post) := by
    rw [hparams]
    unfold specKeys
    rw [List.flatMap_append, List.flatMap_cons]
    rfl
  rw [hkeys, List.nodup_append] at hnd
  obtain ⟨hndPre, hndRest, hdisjPre⟩ := hnd
  rw [List.nodup_append] at hndRest
  obtain ⟨hndNs, hndPost, hdisjNsPost⟩ := hndRest
  refine ⟨l, hl, hlen, ?_⟩
  intro d hd
  obtain ⟨ps, hf2, hepp⟩ := expand_combo_mem hget hd
  have hf2orig := hf2
  have hsnd : params.map Prod.snd
      = pre.map Prod.snd ++ vss :: post.map Prod.snd := by
    rw [hparams]; simp
  rw [hsnd] at hf2
  obtain ⟨ps1, pm, ps2, hpseq, hf2a, hmem, hf2b, hlenA⟩ := forall2_split_right hf2
  have hpm : ∃ vs, pm = PyVal.tuple vs := by
    have hmid := (List.all_eq_true.mp hpt) (AxisKey.pair ns, vss)
      (by rw [hparams]; simp)
    have h2 := (List.all_eq_true.mp hmid) pm hmem
    cases pm <;> simp_all
  obtain ⟨vs, rfl⟩ := hpm
  have hfst : params.map Prod.fst
      = pre.map Prod.fst ++ AxisKey.pair ns :: post.map Prod.fst := by
    rw [hparams]; simp
  have hlen1 : (pre.map Prod.fst).length = ps1.length := by
    rw [List.length_map]
    rw [hlenA, List.length_map]
  have hzip : (params.map Prod.fst).zip ps =
      ((pre.map Prod.fst).zip ps1) ++
        (AxisKey.pair ns, PyVal.tuple vs) :: ((post.map Prod.fst).zip ps2) := by
    rw [hfst, hpseq, List.zip_append hlen1, List.zip_cons_cons]
  have htup := zip_pairs_tuples hpt hf2orig
  have hfold := epp_loop_eq_foldl ((params.map Prod.fst).zip ps) htup []
  have hdf : d = (flatBinds ((params.map Prod.fst).zip ps)).foldl
      (fun ps p => dinsert p.1 p.2 ps) [] :=
    Except.ok.inj (hepp.symm.trans hfold)
  have hlook : ∀ k, alookup k d =
      alookup k (flatBinds ((params.map Prod.fst).zip ps)).reverse := by
    intro k
    rw [hdf, foldl_dinsert_alookup]
    cases alookup k (flatBinds ((params.map Prod.fst).zip ps)).reverse <;> rfl
  have hflat : flatBinds ((params.map Prod.fst).zip ps) =
      flatBinds ((pre.map Prod.fst).zip ps1) ++ (ns.zip vs)
        ++ flatBinds ((post.map Prod.fst).zip ps2) := by
    rw [hzip, flatBinds_append]
    have hmid : flatBinds ((AxisKey.pair ns, PyVal.tuple vs) ::
        (post.map Prod.fst).zip ps2) =
      (ns.zip vs) ++ flatBinds ((post.map Prod.fst).zip ps2) := rfl
    rw [hmid, ← List.append_assoc]
  have hsubA : ((flatBinds ((pre.map Prod.fst).zip ps1)).map Prod.fst).Sublist
      (specKeys pre) := by
    have h1 := flatBinds_keys_sublist ((pre.map Prod.fst).zip ps1)
    rw [pairsNames_eq (pre.map Prod.fst) ps1 (le_of_eq hlen1)] at h1
    rw [List.flatMap_map] at h1
    exact h1
  have hsubB : ((flatBinds ((post.map Prod.fst).zip ps2)).map Prod.fst).Sublist
      (specKeys post) := by
    have h1 := flatBinds_keys_sublist ((post.map Prod.fst).zip ps2)
    have hlen2 : (post.map Prod.fst).length = ps2.length := by
      rw [List.length_map]
      have := hf2b.length_eq
      rw [this, List.length_map]
    rw [pairsNames_eq (post.map Prod.fst) ps2 (le_of_eq hlen2)] at h1
    rw [List.flatMap_map] at h1
    exact h1
  have hAnone : ∀ k ∈ ns,
      alookup k (flatBinds ((pre.map Prod.fst).zip ps1)).reverse = none := by
    intro k hk
    apply alookup_eq_none_of_not_mem
    rw [List.map_reverse, List.mem_reverse]
    intro hkA
    exact hdisjPre (hsubA.subset hkA) (List.mem_append_left _ hk)
  have hBnone : ∀ k ∈ ns,
      alookup k (flatBinds ((post.map Prod.fst).zip ps2)).reverse = none := by
    intro k hk
    apply alookup_eq_none_of_not_mem
    rw [List.map_reverse, List.mem_reverse]
    intro hkB
    exact hdisjNsPost hk (hsubB.subset hkB)
  refine ⟨vs, hmem, ?_, ?_⟩
  · intro idx k v hk hv
    have hkmem : k ∈ ns := List.getElem?_mem hk
    rw [hlook k, hflat, List.reverse_append, List.reverse_append,
      alookup_append, hBnone k hkmem]
    rw [alookup_append]
    have hZ : alookup k (ns.zip vs).reverse = some v := by
      rw [alookup_reverse_nodup (by
        rw [map_fst_zip_eq_take]
        exact hndNs.sublist (List.take_sublist vs.length ns))]
      exact alookup_zip_nodup ns vs hndNs idx k v hk hv
    rw [hZ]
  · intro idx k hk hge
    have hkmem : k ∈ ns := List.getElem?_mem hk
    rw [hlook k, hflat, List.reverse_append, List.reverse_append,
      alookup_append, hBnone k hkmem]
    rw [alookup_append]
    have hZnone : alookup k (ns.zip vs).reverse = none := by
      apply alookup_eq_none_of_not_mem
      rw [List.map_reverse, List.mem_reverse, map_fst_zip_eq_take]
      intro hkTake
      obtain ⟨j, hj⟩ := List.mem_iff_getElem?.mp hkTake
      rw [List.getElem?_take] at hj
      by_cases hjlt : j < vs.length
      · rw [if_pos hjlt] at hj
        have hjns : j < ns.length := by
          obtain ⟨hb, _⟩ := List.getElem?_eq_some.mp hj
          exact hb
        have := List.getElem?_inj hjns hndNs (hj.trans hk.symm)
        omega
      · rw [if_neg hjlt] at hj
        simp at hj
    rw [hZnone]
    exact hAnone k hkmem

/-- Witness for C4: the amended truncation law applied to a specification
holding an ordinary axis followed by the mismatched paired axis (a, b)
with value tuple (1, 2, 3): expansion succeeds with one combo per value of
the ordinary axis, a is bound to 1, b to 2 and the surplus element 3 is
dropped. -/
theorem C4_zip_truncates_witness :
    pairedTuplesSpec
        ([(AxisKey.single "m", [PyVal.int 7])] ++
          (AxisKey.pair ["a", "b"],
            [PyVal.tuple [PyVal.int 1, PyVal.int 2, PyVal.int 3]]) :: []) =
        true ∧
      (specKeys ([(AxisKey.single "m", [PyVal.int 7])] ++
          (AxisKey.pair ["a", "b"],
            [PyVal.tuple [PyVal.int 1, PyVal.int 2, PyVal.int 3]]) :: [])).Nodup ∧
      ∃ l, expand_param_grid
          ([(AxisKey.single "m", [PyVal.int 7])] ++
            (AxisKey.pair ["a", "b"],
              [PyVal.tuple [PyVal.int 1, PyVal.int 2, PyVal.int 3]]) :: []) =
          Except.ok l ∧
        l.length = (([(AxisKey.single "m", [PyVal.int 7])] ++
            (AxisKey.pair ["a", "b"],
              [PyVal.tuple [PyVal.int 1, PyVal.int 2, PyVal.int 3]]) :: []).map
          (fun p => p.2.length)).prod ∧
        ∀ d ∈ l, ∃ vs,
          PyVal.tuple vs ∈ [PyVal.tuple [PyVal.int 1, PyVal.int 2, PyVal.int 3]] ∧
          (∀ (idx : Nat) (k : String) (v : PyVal),
            (["a", "b"] : List String)[idx]? = some k → vs[idx]? = some v →
            alookup k d = some v) ∧
          (∀ (idx : Nat) (k : String),
            (["a", "b"] : List String)[idx]? = some k → vs.length ≤ idx →
            alookup k d = none) :=
  ⟨by decide, by decide,
    C4_zip_truncates [(AxisKey.single "m", [PyVal.int 7])] []
      ["a", "b"] [PyVal.tuple [PyVal.int 1, PyVal.int 2, PyVal.int 3]]
      (by decide) (by decide)⟩

/-- C5: counterexample to the claim that two axes flattening to the same
parameter name make grid expansion fail.  Two axes both named a expand
without any error, the value of the later axis silently replacing that of
the earlier one; no DuplicateKeyError exists in the source. -/
theorem C5_no_duplicate_error_counterexample :
    expand_param_grid
        [(AxisKey.single "a", [PyVal.int 1]),
         (AxisKey.single "a", [PyVal.int 2])] =
      Except.ok [[("a", PyVal.int 2)]] := rfl

/-- C5 amended: axes that flatten to the same parameter name do NOT make
grid expansion fail.  For EVERY non-empty specification whose paired
values are tuples, expansion produces the full product of combos, and the
value every combo holds for a name k is the one assigned LAST for k in the
flattened assignment sequence of that grid point — equivalently, the first
match for k in the REVERSED sequence — so when several axes (or several
positions of a paired axis) bind the same name, the later binding silently
replaces the earlier one. -/
theorem C5_later_axis_overwrites (params : List (AxisKey × List PyVal))
    (hpt : pairedTuplesSpec params = true) (hne : params.isEmpty = false) :
    ∃ l, expand_param_grid params = Except.ok l ∧
      l.length = (params.map (fun p => p.2.length)).prod ∧
      ∀ d ∈ l, ∃ ps, List.Forall₂ (fun v vs => v ∈ vs) ps (params.map Prod.snd) ∧
        expand_paired_params ((params.map Prod.fst).zip ps) = Except.ok d ∧
        ∀ k, alookup k d =
          alookup k (flatBinds ((params.map Prod.fst).zip ps)).reverse := by
  obtain ⟨l, hl, hlen, hget⟩ := expand_ok_of_pairedTuples params hpt hne
  refine ⟨l, hl, hlen, ?_⟩
  intro d hd
  obtain ⟨ps, hf2, hepp⟩ := expand_combo_mem hget hd
  refine ⟨ps, hf2, hepp, ?_⟩
  have htup := zip_pairs_tuples hpt hf2
  have hfold := epp_loop_eq_foldl ((params.map Prod.fst).zip ps) htup []
  have hdf : d = (flatBinds ((params.map Prod.fst).zip ps)).foldl
      (fun ps p => dinsert p.1 p.2 ps) [] :=
    Except.ok.inj (hepp.symm.trans hfold)
  intro k
  rw [hdf, foldl_dinsert_alookup]
  cases alookup k (flatBinds ((params.map Prod.fst).zip ps)).reverse <;> rfl

/-- Witness for C5: the amended overwrite law applied to the concrete
specification of the counterexample — two axes both named a — whose single
combo binds a to 2, the value of the later axis. -/
theorem C5_later_axis_overwrites_witness :
    pairedTuplesSpec
        [(AxisKey.single "a", [PyVal.int 1]),
         (AxisKey.single "a", [PyVal.int 2])] = true ∧
      ([(AxisKey.single "a", [PyVal.int 1]),
        (AxisKey.single "a", [PyVal.int 2])] :
          List (AxisKey × List PyVal)).isEmpty = false ∧
      ∃ l, expand_param_grid
          [(AxisKey.single "a", [PyVal.int 1]),
           (AxisKey.single "a", [PyVal.int 2])] = Except.ok l ∧
        l.length = ([(AxisKey.single "a", [PyVal.int 1]),
          (AxisKey.single "a", [PyVal.int 2])].map
            (fun p => p.2.length)).prod ∧
        ∀ d ∈ l, ∃ ps,
          List.Forall₂ (fun v vs => v ∈ vs) ps
            [[PyVal.int 1], [PyVal.int 2]] ∧
          expand_paired_params
            ([AxisKey.single "a", AxisKey.single "a"].zip ps) = Except.ok d ∧
          ∀ k, alookup k d =
            alookup k (flatBinds
              ([AxisKey.single "a", AxisKey.single "a"].zip ps)).reverse :=
  ⟨by decide, rfl,
    C5_later_axis_overwrites
      [(AxisKey.single "a", [PyVal.int 1]), (AxisKey.single "a", [PyVal.int 2])]
      (by decide) rfl⟩

/-- C6: counterexample to the claim that the returned job name contains
only characters from [A-Za-z0-9] plus the allowed punctuation.  The
parameter value é (U+00E9) survives sanitization — Python isalnum accepts
every Unicode alphanumeric character, not only ASCII — so the output
contains a character that is neither ASCII alphanumeric nor allowed
punctuation. -/
theorem C6_unicode_survives_counterexample :
    get_job_name "run" [("a", PyVal.str "é")] none ",._-" =
        Except.ok "run,a-é" ∧
      ("run,a-é").data.any
          (fun c => !(c.isAlphanum || pyCharIn c ",._-")) = true :=
  ⟨rfl, rfl⟩

/-- C6 amended: every character of a returned job name is accepted by the
Python alphanumericity test or is a member of allowed_chars; in particular
every ASCII character of the output is ASCII alphanumeric [A-Za-z0-9] or
allowed punctuation.  (The only amendment forced by the counterexample:
non-ASCII Unicode alphanumerics also pass the filter, so the ASCII-only
reading of the claim holds for the ASCII part of the output.) -/
theorem C6_sanitized_output (name : String) (params : List (String × PyVal))
    (tpl : Option String) (allowed : String) (s : String)
    (hok : get_job_name name params tpl allowed = Except.ok s) :
    ∀ c ∈ s.data, (pyIsAlnum c || pyCharIn c allowed) = true ∧
      (c.toNat < 128 → (c.isAlphanum || pyCharIn c allowed) = true) := by
  unfold get_job_name at hok
  simp only [] at hok
  repeat' split at hok
  all_goals
    first
    | exact Except.noConfusion hok
    | · simp only [Except.ok.injEq] at hok
        subst hok
        intro c hc
        have hp : (pyIsAlnum c || pyCharIn c allowed) = true :=
          (List.mem_filter.mp hc).2
        refine ⟨hp, fun hascii => ?_⟩
        cases Bool.or_eq_true_iff.mp hp with
        | inr hb => simp [hb]
        | inl ha =>
          unfold pyIsAlnum at ha
          cases Bool.or_eq_true_iff.mp ha with
          | inl h1 => simp [h1]
          | inr h2 =>
            simp only [Bool.and_eq_true, decide_eq_true_eq] at h2
            omega

/-- Witness for C6 amended: the sanitation law applied to a concrete call
whose parameter value holds a space, a slash and an exclamation mark, all
of which are absent from the output. -/
theorem C6_sanitized_output_witness :
    get_job_name "run" [("a", PyVal.str "x y/z!")] none ",._-" =
        Except.ok "run,a-xyz" ∧
      ∀ c ∈ ("run,a-xyz" : String).data,
        (pyIsAlnum c || pyCharIn c ",._-") = true ∧
          (c.toNat < 128 → (c.isAlphanum || pyCharIn c ",._-") = true) :=
  ⟨rfl, C6_sanitized_output "run" [("a", PyVal.str "x y/z!")] none ",._-"
    "run,a-xyz" rfl⟩

theorem fvn_error_typeError {v : PyVal} {e : PyErr}
    (h : format_value_for_name v = Except.error e) : e = PyErr.typeError := by
  cases v with
  | dict d => simp [format_value_for_name] at h; exact h.symm
  | int n => simp [format_value_for_name] at h
  | bool b => simp [format_value_for_name] at h
  | str s => simp [format_value_for_name] at h
  | list xs =>
    cases hj : joinStrs xs with
    | none => simp [format_value_for_name, hj] at h; exact h.symm
    | some s => simp [format_value_for_name, hj] at h
  | tuple xs =>
    cases hj : joinStrs xs with
    | none => simp [format_value_for_name, hj] at h; exact h.symm
    | some s => simp [format_value_for_name, hj] at h

/-- Value of format_value_for_name on success (the argument itself
otherwise); lets the success case of fmtParams be written as a map. -/
def fvnVal (v : PyVal) : PyVal :=
  match format_value_for_name v with
  | Except.ok w => w
  | Except.error _ => v

theorem fmtParams_ok {l : List (String × PyVal)}
    (h : ∀ p ∈ l, ∃ w, format_value_for_name p.2 = Except.ok w) :
    fmtParams l = Except.ok (l.map (fun p => (p.1, fvnVal p.2))) := by
  induction l with
  | nil => rfl
  | cons p l ih =>
    obtain ⟨w, hw⟩ := h p (List.mem_cons_self p l)
    have hv : fvnVal p.2 = w := by simp [fvnVal, hw]
    simp [fmtParams, hw, ih (fun q hq => h q (List.mem_cons_of_mem p hq)), hv]

theorem fmtParams_error {l : List (String × PyVal)}
    (h : ¬ ∀ p ∈ l, ∃ w, format_value_for_name p.2 = Except.ok w) :
    fmtParams l = Except.error PyErr.typeError := by
  induction l with
  | nil => exact absurd (fun p hp => absurd hp (List.not_mem_nil p)) h
  | cons p l ih =>
    cases hw : format_value_for_name p.2 with
    | error e =>
      have he := fvn_error_typeError hw
      subst he
      simp [fmtParams, hw]
    | ok w =>
      have h2 : ¬ ∀ q ∈ l, ∃ w2, format_value_for_name q.2 = Except.ok w2 := by
        intro hall
        apply h
        intro q hq
        rcases List.mem_cons.mp hq with rfl | hq2
        · exact ⟨w, hw⟩
        · exact hall q hq2
      simp [fmtParams, hw, ih h2]

theorem resolveField_congr (field : List Char) (auto : Nat) (args : List PyVal)
    {kw1 kw2 : List (String × PyVal)}
    (hkw : ∀ k, alookup k kw1 = alookup k kw2) :
    resolveField field auto args kw1 = resolveField field auto args kw2 := by
  unfold resolveField
  rw [hkw]

theorem pyFormatCore_congr (fuel : Nat) :
    ∀ (cs : List Char) (auto : Nat) (args : List PyVal)
      {kw1 kw2 : List (String × PyVal)},
      (∀ k, alookup k kw1 = alookup k kw2) →
      pyFormatCore fuel cs auto args kw1 = pyFormatCore fuel cs auto args kw2 := by
  induction fuel with
  | zero => intro cs auto args kw1 kw2 hkw; rfl
  | succ fuel ih =>
    intro cs auto args kw1 kw2 hkw
    cases cs with
    | nil => rfl
    | cons c rest =>
      simp only [pyFormatCore]
      by_cases h1 : c = obrace
      · simp only [if_pos h1]
        cases rest with
        | nil => rfl
        | cons c2 rest2 =>
          by_cases h2 : c2 = obrace
          · simp only [if_pos h2]
            rw [ih rest2 auto args hkw]
          · simp only [if_neg h2]
            cases hdw : (c2 :: rest2).dropWhile (fun d => d ≠ cbrace) with
            | nil => rfl
            | cons c3 rest3 =>
              rw [resolveField_congr _ auto args hkw]
              cases resolveField ((c2 :: rest2).takeWhile (fun d => d ≠ cbrace))
                  auto args kw2 with
              | error e => rfl
              | ok pr =>
                obtain ⟨s2, auto2⟩ := pr
                dsimp only
                rw [ih rest3 auto2 args hkw]
      · by_cases h3 : c = cbrace
        · simp only [if_neg h1, if_pos h3]
          cases rest with
          | nil => rfl
          | cons c2 rest2 =>
            by_cases h4 : c2 = cbrace
            · simp only [if_pos h4]
              rw [ih rest2 auto args hkw]
            · simp only [if_neg h4]
        · simp only [if_neg h1, if_neg h3]
          rw [ih rest auto args hkw]

theorem pyFormat_congr (tpl : String) (args : List PyVal)
    {kw1 kw2 : List (String × PyVal)}
    (hkw : ∀ k, alookup k kw1 = alookup k kw2) :
    pyFormat tpl args kw1 = pyFormat tpl args kw2 := by
  unfold pyFormat
  rw [pyFormatCore_congr (tpl.data.length + 1) tpl.data 0 args hkw]

/-- Strict key ordering on dictionary entries. -/
def keyLT (p q : String × PyVal) : Prop := p.1 < q.1

instance : IsTrans (String × PyVal) keyLE :=
  ⟨fun _ _ _ hab hbc => le_trans hab hbc⟩

instance : IsTotal (String × PyVal) keyLE :=
  ⟨fun a b => le_total a.1 b.1⟩

instance : IsTrans (String × PyVal) keyLT :=
  ⟨fun _ _ _ hab hbc => lt_trans hab hbc⟩

instance : IsAntisymm (String × PyVal) keyLT :=
  ⟨fun a _ hab hba => absurd (lt_trans hab hba) (lt_irrefl a.1)⟩

theorem sorted_keyLT_of_nodup {m : List (String × PyVal)}
    (hs : List.Sorted keyLE m) (hnd : (m.map Prod.fst).Nodup) :
    List.Sorted keyLT m := by
  have hne : List.Pairwise (fun p q : String × PyVal => p.1 ≠ q.1) m :=
    List.pairwise_map.mp hnd
  exact List.Pairwise.imp (fun h => lt_of_le_of_ne h.1 h.2) (hs.and hne)

theorem sortParams_perm_eq {m1 m2 : List (String × PyVal)} (hperm : m1.Perm m2)
    (hnd : (m1.map Prod.fst).Nodup) : sortParams m1 = sortParams m2 := by
  have hp1 : (sortParams m1).Perm m1 := List.perm_insertionSort keyLE m1
  have hp2 : (sortParams m2).Perm m2 := List.perm_insertionSort keyLE m2
  have hnd2 : (m2.map Prod.fst).Nodup := hnd.perm (hperm.map Prod.fst)
  have hnds1 : ((sortParams m1).map Prod.fst).Nodup :=
    hnd.perm (hp1.map Prod.fst).symm
  have hnds2 : ((sortParams m2).map Prod.fst).Nodup :=
    hnd2.perm (hp2.map Prod.fst).symm
  exact List.eq_of_perm_of_sorted (hp1.trans (hperm.trans hp2.symm))
    (sorted_keyLT_of_nodup (List.sorted_insertionSort keyLE m1) hnds1)
    (sorted_keyLT_of_nodup (List.sorted_insertionSort keyLE m2) hnds2)

/-- C7: job-name synthesis is order independent in the combo mapping: two
calls whose parameter dictionaries hold the same key-value pairs in
different iteration orders (a permutation with the duplicate-free keys a
Python dictionary guarantees) return the same job name, because the source
sorts the items before building the template and the values, and keyword
interpolation depends on the dictionary only through key lookup. -/
theorem C7_name_order_independent (base : String) (tpl : Option String)
    (allowed : String) (l1 l2 : List (String × PyVal))
    (hperm : l1.Perm l2) (hnd : (l1.map Prod.fst).Nodup) :
    get_job_name base l1 tpl allowed = get_job_name base l2 tpl allowed := by
  by_cases hall : ∀ p ∈ l1, ∃ w, format_value_for_name p.2 = Except.ok w
  · have hall2 : ∀ p ∈ l2, ∃ w, format_value_for_name p.2 = Except.ok w :=
      fun p hp => hall p (hperm.mem_iff.mpr hp)
    have h1 := fmtParams_ok hall
    have h2 := fmtParams_ok hall2
    by_cases hl1 : l1 = []
    · subst hl1
      have hl2 : l2 = [] := hperm.symm.eq_nil
      subst hl2
      rfl
    · have hl2 : l2 ≠ [] := fun he => hl1 (he ▸ hperm).eq_nil
      have hmperm : (l1.map (fun p => (p.1, fvnVal p.2))).Perm
          (l2.map (fun p => (p.1, fvnVal p.2))) :=
        hperm.map (fun p => (p.1, fvnVal p.2))
      have hkeys1 : (l1.map (fun p => (p.1, fvnVal p.2))).map Prod.fst
          = l1.map Prod.fst := by
        rw [List.map_map]; rfl
      have hmnd : ((l1.map (fun p => (p.1, fvnVal p.2))).map Prod.fst).Nodup := by
        rw [hkeys1]; exact hnd
      have hsort : sortParams (l1.map (fun p => (p.1, fvnVal p.2)))
          = sortParams (l2.map (fun p => (p.1, fvnVal p.2))) :=
        sortParams_perm_eq hmperm hmnd
      have hlookup : ∀ k, alookup k (l1.map (fun p => (p.1, fvnVal p.2)))
          = alookup k (l2.map (fun p => (p.1, fvnVal p.2))) :=
        alookup_perm hmperm hmnd
      have hemp1 : (l1.map (fun p => (p.1, fvnVal p.2))).isEmpty = false :=
        List.isEmpty_eq_false.mpr (fun he => hl1 (List.map_eq_nil_iff.mp he))
      have hemp2 : (l2.map (fun p => (p.1, fvnVal p.2))).isEmpty = false :=
        List.isEmpty_eq_false.mpr (fun he => hl2 (List.map_eq_nil_iff.mp he))
      unfold get_job_name
      rw [h1, h2]
      dsimp only
      rw [hemp1, hemp2]
      simp only [Bool.false_eq_true, if_false]
      rw [hsort, pyFormat_congr _ _ hlookup]
  · have hall2 : ¬ ∀ p ∈ l2, ∃ w, format_value_for_name p.2 = Except.ok w :=
      fun h => hall (fun p hp => h p (hperm.mem_iff.mp hp))
    unfold get_job_name
    rw [fmtParams_error hall, fmtParams_error hall2]

/-- Witness for C7: the two orders of the concrete combo of the claim give
the same job name. -/
theorem C7_name_order_independent_witness :
    ([(("b" : String), PyVal.int 2), ("a", PyVal.int 1)]).Perm
        [("a", PyVal.int 1), ("b", PyVal.int 2)] ∧
      ([(("b" : String), PyVal.int 2), ("a", PyVal.int 1)].map Prod.fst).Nodup ∧
      get_job_name "run" [("b", PyVal.int 2), ("a", PyVal.int 1)] none ",._-" =
        get_job_name "run" [("a", PyVal.int 1), ("b", PyVal.int 2)] none ",._-" :=
  ⟨List.Perm.swap ("a", PyVal.int 1) ("b", PyVal.int 2) [], by decide,
    C7_name_order_independent "run" none ",._-"
      [("b", PyVal.int 2), ("a", PyVal.int 1)]
      [("a", PyVal.int 1), ("b", PyVal.int 2)]
      (List.Perm.swap ("a", PyVal.int 1) ("b", PyVal.int 2) []) (by decide)⟩

/-- C8: evaluation of format_value_for_name at a dictionary value raises
TypeError instead of rendering the claimed sorted key-value pairs: line 34
of the source calls sorted(dict.items()) on the builtin type dict rather
than on the value being formatted.  The sequence branch of the claim does
hold: a list or tuple of strings renders as the parenthesized
comma-joined elements. -/
theorem C8_format_value_dict_raises :
    format_value_for_name (PyVal.dict [("k", PyVal.int 1)]) =
        Except.error PyErr.typeError ∧
      format_value_for_name (PyVal.list [PyVal.str "v1", PyVal.str "v2"]) =
        Except.ok (PyVal.str "(v1,v2)") ∧
      format_value_for_name (PyVal.tuple [PyVal.str "a"]) =
        Except.ok (PyVal.str "(a)") :=
  ⟨rfl, rfl, rfl⟩

/-- C9: evaluation of Argument.get contradicting both the claim and the
comment of the source (key=fire -> FireArgument, key=None -> Argument).
The registry comprehension keys every subclass by the name of the
enclosing class Argument, so the registry is the single entry
argument ↦ JsonArgument (the last subclass): every recognized variant name
misses and falls back to Argument, while None and the empty string hit the
entry and return JsonArgument. -/
theorem C9_argument_get_eval :
    Argument.get (some "fire") = ArgClass.argumentCls ∧
      Argument.get (some "FIRE") = ArgClass.argumentCls ∧
      Argument.get (some "sacred") = ArgClass.argumentCls ∧
      Argument.get (some "json") = ArgClass.argumentCls ∧
      Argument.get none = ArgClass.jsonArgumentCls ∧
      Argument.get (some "") = ArgClass.jsonArgumentCls ∧
      Argument.get (some "bogus") = ArgClass.argumentCls := by
  refine ⟨?_, ?_, ?_, ?_, ?_, ?_, ?_⟩ <;> decide

/-- Frame property of the inner merge loop at a given fuel: every heap
cell other than the written accumulator dictionary is left unchanged, and
the heap only grows. -/
def MergeFrame (fuel : Nat) : Prop :=
  ∀ h ra lst depth h2, mergeList fuel h ra lst depth = some h2 →
    (∀ i, i < h.length → i ≠ ra → h2[i]? = h[i]?) ∧ h.length ≤ h2.length

/-- Frame property of the fold over the positional dictionaries. -/
def FoldFrame (fuel : Nat) : Prop :=
  ∀ h ra ds depth h2, foldDicts fuel h ra ds depth = some h2 →
    (∀ i, i < h.length → i ≠ ra → h2[i]? = h[i]?) ∧ h.length ≤ h2.length

/-- Frame property of dict_merge: every pre-existing heap cell is left
unchanged and the returned reference is the fresh cell appended at the old
end of the heap. -/
def DMFrame (fuel : Nat) : Prop :=
  ∀ h ds kw depth h2 m, dict_merge fuel h ds kw depth = some (h2, m) →
    (∀ i, i < h.length → h2[i]? = h[i]?) ∧ h.length ≤ h2.length ∧ m = h.length

theorem set_step_frame {fuel : Nat} (hM : MergeFrame fuel)
    {h : Heap} {ra : Nat} {rest : HDict} {depth : Int} {h2 : Heap}
    {k : String} {vb : HVal} {da : HDict}
    (hres : mergeList fuel (h.set ra (dinsert k vb da)) ra rest depth = some h2) :
    (∀ i, i < h.length → i ≠ ra → h2[i]? = h[i]?) ∧ h.length ≤ h2.length := by
  obtain ⟨hf, hlen⟩ := hM _ _ _ _ _ hres
  constructor
  · intro i hi hne
    rw [hf i (by rw [List.length_set]; exact hi) hne]
    exact List.getElem?_set_ne (Ne.symm hne)
  · calc h.length = (h.set ra (dinsert k vb da)).length :=
          (List.length_set h ra (dinsert k vb da)).symm
    _ ≤ h2.length := hlen

theorem frame_all (fuel : Nat) :
    MergeFrame fuel ∧ FoldFrame fuel ∧ DMFrame fuel := by
  induction fuel with
  | zero =>
    refine ⟨?_, ?_, ?_⟩
    · intro h ra lst depth h2 hres
      exact absurd hres (by simp [mergeList])
    · intro h ra ds depth h2 hres
      exact absurd hres (by simp [foldDicts])
    · intro h ds kw depth h2 m hres
      exact absurd hres (by simp [dict_merge])
  | succ fuel ih =>
    obtain ⟨ihM, ihF, ihD⟩ := ih
    refine ⟨?_, ?_, ?_⟩
    · -- mergeList at fuel + 1
      intro h ra lst depth h2 hres
      cases lst with
      | nil =>
        simp only [mergeList, Option.some.injEq] at hres
        subst hres
        exact ⟨fun i _ _ => rfl, le_refl _⟩
      | cons p rest =>
        obtain ⟨k, vb⟩ := p
        simp only [mergeList] at hres
        cases hra : h[ra]? with
        | none => rw [hra] at hres; exact absurd hres (by simp)
        | some da =>
          rw [hra] at hres
          dsimp only at hres
          split at hres
          · -- both sides hold dictionaries
            split at hres
            · exact set_step_frame ihM hres
            · rename_i rA rB heqm hdne
              cases hdm : dict_merge fuel h [rA, rB] [] (depth - 1) with
              | none => rw [hdm] at hres; exact absurd hres (by simp)
              | some pr =>
                obtain ⟨h3, m3⟩ := pr
                rw [hdm] at hres
                dsimp only at hres
                obtain ⟨hfd, hlen3, _⟩ := ihD _ _ _ _ _ _ hdm
                obtain ⟨hf2, hlen2⟩ := ihM _ _ _ _ _ hres
                constructor
                · intro i hi hne
                  rw [hf2 i (lt_of_lt_of_le hi hlen3) hne, hfd i hi]
                · exact le_trans hlen3 hlen2
          · exact set_step_frame ihM hres
    · -- foldDicts at fuel + 1
      intro h ra ds depth h2 hres
      cases ds with
      | nil =>
        simp only [foldDicts, Option.some.injEq] at hres
        subst hres
        exact ⟨fun i _ _ => rfl, le_refl _⟩
      | cons rb rest =>
        simp only [foldDicts] at hres
        cases hrb : h[rb]? with
        | none => rw [hrb] at hres; exact absurd hres (by simp)
        | some db =>
          rw [hrb] at hres
          dsimp only at hres
          cases hml : mergeList fuel h ra db depth with
          | none => rw [hml] at hres; exact absurd hres (by simp)
          | some hA =>
            rw [hml] at hres
            dsimp only at hres
            obtain ⟨hf1, hlen1⟩ := ihM _ _ _ _ _ hml
            obtain ⟨hf2, hlen2⟩ := ihF _ _ _ _ _ hres
            constructor
            · intro i hi hne
              rw [hf2 i (lt_of_lt_of_le hi hlen1) hne, hf1 i hi hne]
            · exact le_trans hlen1 hlen2
    · -- dict_merge at fuel + 1
      intro h ds kw depth h2 m hres
      simp only [dict_merge] at hres
      cases hfd : foldDicts fuel (h ++ [[]]) h.length ds depth with
      | none => rw [hfd] at hres; exact absurd hres (by simp)
      | some hA =>
        rw [hfd] at hres
        dsimp only at hres
        cases hml : mergeList fuel hA h.length kw depth with
        | none => rw [hml] at hres; exact absurd hres (by simp)
        | some hB =>
          rw [hml] at hres
          dsimp only at hres
          simp only [Option.some.injEq, Prod.mk.injEq] at hres
          obtain ⟨rfl, rfl⟩ := hres
          obtain ⟨hf1, hlen1⟩ := ihF _ _ _ _ _ hfd
          obtain ⟨hf2, hlen2⟩ := ihM _ _ _ _ _ hml
          have happ : (h ++ [[]]).length = h.length + 1 := by
            simp
          refine ⟨?_, ?_, rfl⟩
          · intro i hi
            have hne : i ≠ h.length := Nat.ne_of_lt hi
            have hi1 : i < (h ++ [[]]).length := by omega
            rw [hf2 i (lt_of_lt_of_le hi1 hlen1) hne, hf1 i hi1 hne]
            exact List.getElem?_append_left hi
          · omega

/-- C10: dict_merge never mutates any of its input dictionaries or their
nested dictionaries: on success, every heap cell that existed before the
call — in particular every positional argument, the keyword dictionary
contents, and every dictionary nested anywhere inside them — is unchanged
in the result heap, the heap has only grown, and the returned top-level
dictionary is the freshly allocated cell at the old end of the heap,
distinct from every pre-existing reference. -/
theorem C10_dict_merge_frame (fuel : Nat) (h : Heap) (ds : List Nat)
    (kw : HDict) (depth : Int) (h2 : Heap) (m : Nat)
    (hres : dict_merge fuel h ds kw depth = some (h2, m)) :
    (∀ i, i < h.length → h2[i]? = h[i]?) ∧ h.length ≤ h2.length ∧
      m = h.length ∧ ∀ r ∈ ds, r < h.length → r ≠ m := by
  obtain ⟨hf, hlen, hm⟩ := (frame_all fuel).2.2 h ds kw depth h2 m hres
  exact ⟨hf, hlen, hm, fun r _ hr => by omega⟩

/-- Witness for C10: the frame theorem applied to the concrete two-input
heap of the C3 example; the four pre-existing cells are unchanged and the
result is the fresh reference 4. -/
theorem C10_dict_merge_frame_witness :
    ∃ h2 m, dict_merge 32 mergeInputHeap [1, 3] [] (-1) = some (h2, m) ∧
      (∀ i, i < mergeInputHeap.length → h2[i]? = mergeInputHeap[i]?) ∧
      mergeInputHeap.length ≤ h2.length ∧ m = mergeInputHeap.length ∧
      ∀ r ∈ [1, 3], r < mergeInputHeap.length → r ≠ m := by
  cases hdm : dict_merge 32 mergeInputHeap [1, 3] [] (-1) with
  | none => exact absurd hdm (by decide)
  | some pr =>
    exact ⟨pr.1, pr.2, rfl,
      C10_dict_merge_frame 32 mergeInputHeap [1, 3] [] (-1) pr.1 pr.2 hdm⟩

end Slurmjobs
